import Mathlib

/-!
Verification of the quote-ingestion and captioning core of the
motivational meme generator.

The Python sources are shallowly embedded: strings become `List Char`,
file contents become lists of lines, the pandas DataFrame and the
csv.DictReader rows become explicit headers and cell lists, and the
side-effecting PDF extraction becomes explicit state passing.  Every
definition mirrors one function of the source tree; the theorems at the
end settle the specification claims against those definitions.
-/

/-- Shorthand turning a string literal into the character list we compute on. -/
def lit (s : String) : List Char := s.toList

/-- Whitespace test matching the default set of Python str.strip (ASCII part). -/
def pyWs (c : Char) : Bool :=
  c == ' ' || c == '\t' || c == '\n' || c == '\r' || c == '\x0b' || c == '\x0c'

/-- Character set of the Python call strip(' "') used on quote bodies. -/
def spaceQuote (c : Char) : Bool := c == ' ' || c == '"'

/-- Drop leading characters satisfying p (left half of Python strip). -/
def stripLeft (p : Char → Bool) : List Char → List Char
  | [] => []
  | c :: rest => if p c then stripLeft p rest else c :: rest

/-- Drop trailing characters satisfying p (right half of Python strip). -/
def stripRight (p : Char → Bool) (s : List Char) : List Char :=
  (stripLeft p s.reverse).reverse

/-- Python strip(chars): drop characters of the set from both ends. -/
def strip (p : Char → Bool) (s : List Char) : List Char :=
  stripRight p (stripLeft p s)

/-- Python strip() with no argument: trim surrounding whitespace. -/
def pyStrip (s : List Char) : List Char := strip pyWs s

/-- Does the pattern occur as an initial segment of the list? -/
def begins : List Char → List Char → Bool
  | [], _ => true
  | _ :: _, [] => false
  | c :: cr, d :: dr => c == d && begins cr dr

/-- Python substring containment, sep in s. -/
def hasSub (sep : List Char) : List Char → Bool
  | [] => begins sep []
  | c :: rest => begins sep (c :: rest) || hasSub sep rest

/-- Python s.rsplit(sep, 1) in its splitting case: the pieces around the
last occurrence of sep, or none when sep does not occur in s. -/
def rsplitLast (sep : List Char) : List Char → Option (List Char × List Char)
  | [] => if begins sep [] then some ([], []) else none
  | c :: rest =>
    match rsplitLast sep rest with
    | some (l, r) => some (c :: l, r)
    | none =>
      if begins sep (c :: rest) then some ([], (c :: rest).drop sep.length)
      else none

/-- QuoteModel: a quote body together with its author. -/
structure QuoteRecord where
  body : List Char
  author : List Char
  deriving DecidableEq, Repr

/-- String form produced by QuoteModel.__str__, that is "<body>" - <author>. -/
def QuoteRecord.display (r : QuoteRecord) : List Char :=
  '"' :: r.body ++ '"' :: ' ' :: '-' :: ' ' :: r.author

/-- Body of the per-line loop that appears verbatim in TextIngestor.parse,
DocxIngestor.parse (per paragraph) and PDFIngestor.parse: strip the line,
skip it when blank or free of "-", split at the last " - " when that
sequence occurs, else at the last "-", clean both parts, and emit a record
only when both are non-empty. -/
def splitQuoteLine (rawLine : List Char) : Option QuoteRecord :=
  if (pyStrip rawLine).isEmpty then none
  else if !(hasSub (lit "-") (pyStrip rawLine)) then none
  else
    match (if hasSub (lit " - ") (pyStrip rawLine) then
             rsplitLast (lit " - ") (pyStrip rawLine)
           else rsplitLast (lit "-") (pyStrip rawLine)) with
    | none => none
    | some (rawBody, rawAuthor) =>
      if !(pyStrip (strip spaceQuote rawBody)).isEmpty &&
          !(pyStrip rawAuthor).isEmpty then
        some ⟨pyStrip (strip spaceQuote rawBody), pyStrip rawAuthor⟩
      else none

/-- TextIngestor.parse, with the file given as its list of lines. -/
def TextIngestor.parse (fileLines : List (List Char)) : List QuoteRecord :=
  fileLines.filterMap splitQuoteLine

/-- DocxIngestor.parse, with the document given as its list of paragraph
texts; the loop body is the same as the text ingestor. -/
def DocxIngestor.parse (paragraphs : List (List Char)) : List QuoteRecord :=
  paragraphs.filterMap splitQuoteLine

/-! Ingestion facade (src/QuoteEngine/ingestor.py and ingestor_interface.py). -/

/-- Identity of one of the four format ingestors, in the order the facade
iterates over them. -/
inductive ParserId
  | text
  | csv
  | docx
  | pdf
  deriving DecidableEq, Repr

/-- Class attribute allowed_extensions of each ingestor. -/
def allowedExtensions : ParserId → List (List Char)
  | .text => [lit "txt"]
  | .csv => [lit "csv"]
  | .docx => [lit "docx"]
  | .pdf => [lit "pdf"]

/-- Python str.lower, character-wise. -/
def lowerStr (s : List Char) : List Char := s.map Char.toLower

/-- Python s.split(c) for a one-character separator: split at every
occurrence, keeping empty parts; the result is never empty. -/
def splitAll (c : Char) : List Char → List (List Char)
  | [] => [[]]
  | x :: xs =>
    match splitAll c xs with
    | [] => [[]]
    | h :: t => if x == c then [] :: h :: t else (x :: h) :: t

/-- Extension computed by IngestorInterface.can_ingest:
path.split(".")[-1].lower(). -/
def extOf (path : List Char) : List Char :=
  lowerStr ((splitAll '.' path).getLastD [])

/-- IngestorInterface.can_ingest: the extension is in allowed_extensions. -/
def canIngest (p : ParserId) (path : List Char) : Bool :=
  (allowedExtensions p).contains (extOf path)

/-- Order of the tuple the facade for-loop iterates over. -/
def parserOrder : List ParserId := [.text, .csv, .docx, .pdf]

/-- Errors surfaced by Ingestor.parse. -/
inductive FacadeError
  | notFound (path : List Char)
  | parseFailure (p : ParserId) (path : List Char)
  | unsupported (path : List Char)
  deriving DecidableEq, Repr

/-- For-loop of Ingestor.parse over an oracle giving each ingestor outcome;
besides the result it returns the list of ingestors whose parse was invoked. -/
def facadeLoop (results : ParserId → Except Unit (List QuoteRecord))
    (path : List Char) :
    List ParserId → Except FacadeError (List QuoteRecord) × List ParserId
  | [] => (.error (.unsupported path), [])
  | p :: rest =>
    if canIngest p path then
      (match results p with
       | .ok qs => .ok qs
       | .error _ => .error (.parseFailure p path), [p])
    else facadeLoop results path rest

/-- Ingestor.parse, with an oracle for file existence and for the outcome
of each ingestor parse call. -/
def facadeParse (fileIsThere : Bool)
    (results : ParserId → Except Unit (List QuoteRecord)) (path : List Char) :
    Except FacadeError (List QuoteRecord) × List ParserId :=
  if !fileIsThere then (.error (.notFound path), [])
  else facadeLoop results path parserOrder

/-! CSV ingestors.  The pandas-based one lives in
motivacional_meme_generator/QuoteEngine/csv_ingestor.py, the
csv.DictReader-based one in src/QuoteEngine/csv_ingestor.py. -/

/-- A pandas DataFrame as produced by read_csv, with every cell already in
its str(...) form; an empty or otherwise NaN cell reads back as "nan". -/
structure DataFrame where
  columns : List (List Char)
  rows : List (List (List Char))
  deriving DecidableEq, Repr

/-- CSVIngestor._find_quote_columns (pandas version): case-insensitive
column resolution through the guarded-pattern cascade of the source. -/
def findQuoteColumns (columns : List (List Char)) :
    Option (List Char × List Char) :=
  let lower := columns.map lowerStr
  if lower.contains (lit "body") && lower.contains (lit "author") then
    some (columns.getD (lower.findIdx (· == lit "body")) [],
          columns.getD (lower.findIdx (· == lit "author")) [])
  else if lower.contains (lit "quote") && lower.contains (lit "speaker") then
    some (columns.getD (lower.findIdx (· == lit "quote")) [],
          columns.getD (lower.findIdx (· == lit "speaker")) [])
  else if lower.contains (lit "body") && lower.contains (lit "speaker") then
    some (columns.getD (lower.findIdx (· == lit "body")) [],
          columns.getD (lower.findIdx (· == lit "speaker")) [])
  else if lower.contains (lit "quote") && lower.contains (lit "author") then
    some (columns.getD (lower.findIdx (· == lit "quote")) [],
          columns.getD (lower.findIdx (· == lit "author")) [])
  else none

/-- Label access str(row[name]) on one DataFrame row; a label resolving past
the width of the row reads as NaN, whose str form is "nan". -/
def cellStr (columns : List (List Char)) (row : List (List Char))
    (name : List Char) : List Char :=
  row.getD (columns.findIdx (· == name)) (lit "nan")

/-- Row filter shared by both branches of the pandas CSVIngestor.parse loop:
strip the two cells and emit only when both are non-empty and neither is
the literal text nan. -/
def emitRow (bodyCell authorCell : List Char) : Option QuoteRecord :=
  let body := pyStrip bodyCell
  let author := pyStrip authorCell
  if body ≠ [] ∧ author ≠ [] ∧ body ≠ lit "nan" ∧ author ≠ lit "nan" then
    some ⟨body, author⟩
  else none

/-- CSVIngestor.parse (pandas version) on the DataFrame model. -/
def CSVIngestor.parseDF (df : DataFrame) : List QuoteRecord :=
  match findQuoteColumns df.columns with
  | some (bodyCol, authorCol) =>
    df.rows.filterMap fun row =>
      emitRow (cellStr df.columns row bodyCol) (cellStr df.columns row authorCol)
  | none =>
    if 2 ≤ df.columns.length then
      df.rows.filterMap fun row =>
        emitRow (row.getD 0 (lit "nan")) (row.getD 1 (lit "nan"))
    else []

/-- Truthiness of an optional cell value: None and the empty string are
falsy. -/
def truthy : Option (List Char) → Bool
  | none => false
  | some s => !s.isEmpty

/-- Python a or b on optional cell values. -/
def pyOr (a b : Option (List Char)) : Option (List Char) :=
  if truthy a then a else b

/-- csv.DictReader row lookup row.get(name), for a rectangular row. -/
def rowGet (header : List (List Char)) (cells : List (List Char))
    (name : List Char) : Option (List Char) :=
  match header.findIdx? (· == name) with
  | some i => cells[i]?
  | none => none

/-- Per-row logic of the csv.DictReader-based CSVIngestor.parse: resolve
body and author independently through the or-chains of the source, fall
back to the first two cells when either is falsy, and emit the stripped
values when both are truthy. -/
def dictRowQuote (header cells : List (List Char)) : Option QuoteRecord :=
  let body0 :=
    pyOr (pyOr (pyOr (rowGet header cells (lit "body"))
      (rowGet header cells (lit "quote"))) (rowGet header cells (lit "Body")))
      (rowGet header cells (lit "Quote"))
  let author0 :=
    pyOr (pyOr (pyOr (rowGet header cells (lit "author"))
      (rowGet header cells (lit "speaker"))) (rowGet header cells (lit "Author")))
      (rowGet header cells (lit "Speaker"))
  let resolved :=
    if !truthy body0 || !truthy author0 then
      if 2 ≤ cells.length then (cells[0]?, cells[1]?) else (body0, author0)
    else (body0, author0)
  match resolved.1, resolved.2 with
  | some b, some a =>
    if !b.isEmpty && !a.isEmpty then some ⟨pyStrip b, pyStrip a⟩ else none
  | _, _ => none

/-- Main path of the csv.DictReader-based CSVIngestor.parse, with the file
given as a header row plus rectangular data rows. -/
def dictCSVParse (header : List (List Char)) (rows : List (List (List Char))) :
    List QuoteRecord :=
  rows.filterMap (dictRowQuote header)

/-! Caption compositor (MemeEngine.make_meme). -/

/-- Python " ".join of a list of words. -/
def joinWords : List (List Char) → List Char
  | [] => []
  | [w] => w
  | w :: rest => w ++ ' ' :: joinWords rest

/-- One iteration of the wrap_text for-loop inside make_meme.  The state is
the pair (current, lines); meas abstracts the pixel width that
draw.textbbox reports for a rendered candidate line. -/
def wrapStep (meas : List Char → Nat) (maxW : Nat)
    (st : List (List Char) × List (List (List Char))) (w : List Char) :
    List (List Char) × List (List (List Char)) :=
  let candidate := if st.1.isEmpty then w else joinWords (st.1 ++ [w])
  if meas candidate ≤ maxW then (st.1 ++ [w], st.2)
  else ([w], st.2 ++ (if st.1.isEmpty then [] else [st.1]))

/-- wrap_text of make_meme, kept at the word level: the resulting lines,
each given as its list of words (the source stores " ".join of each). -/
def wrapLines (meas : List Char → Nat) (maxW : Nat)
    (ws : List (List Char)) : List (List (List Char)) :=
  let st := ws.foldl (wrapStep meas maxW) ([], [])
  st.2 ++ (if st.1.isEmpty then [] else [st.1])

/-- Initial font size of the dynamic sizing loop:
min(40, int(img.height / 10)). -/
def initialFontSize (imgHeight : Nat) : Nat := min 40 (imgHeight / 10)

/-- Font size the sizing loop of make_meme leaves bound in font, given an
oracle fits telling whether the wrapped block at a size occupies less than
half the image height.  The loop keeps the font of the last executed
iteration; none models the path where the loop body never runs, so that
font and body_lines stay unbound and the code after the loop raises. -/
def chosenFontSize (fits : Nat → Bool) (fontSize : Nat) : Option Nat :=
  if _h : 10 < fontSize then
    if fits fontSize then some fontSize
    else
      match chosenFontSize fits (fontSize - 2) with
      | some r => some r
      | none => some fontSize
  else none
termination_by fontSize
decreasing_by omega

/-! PDF ingestor (motivacional_meme_generator/QuoteEngine/pdf_ingestor.py). -/

/-- Filesystem state tracked around the temporary extraction file. -/
structure TmpState where
  tmpIsThere : Bool
  deriving DecidableEq, Repr

/-- Outcome of PDFIngestor.parse once a tool was selected. -/
inductive PdfOutcome
  | ok (quotes : List QuoteRecord)
  | toolFailure
  | parseFailure
  deriving DecidableEq, Repr

/-- Oracle for the effects inside the try block: the outcome of the
subprocess extraction (error models CalledProcessError) and whether
reading the temporary file back raises. -/
structure PdfEnv where
  extraction : Except Unit (List (List Char))
  readFails : Bool

/-- Try block of PDFIngestor.parse, threading the temp-file state: run the
tool, then read the extracted lines back and parse them with the shared
line logic; the two except clauses map the failures. -/
def pdfTryBody (env : PdfEnv) (s : TmpState) : PdfOutcome × TmpState :=
  match env.extraction with
  | .error _ => (.toolFailure, s)
  | .ok lines =>
    if env.readFails then (.parseFailure, s)
    else (.ok (lines.filterMap splitQuoteLine), s)

/-- Finally block: if os.path.exists(tmp_path): os.remove(tmp_path). -/
def finallyCleanup (s : TmpState) : TmpState :=
  if s.tmpIsThere then ⟨false⟩ else s

/-- Semantics of try ... finally: the cleanup runs on the state left by the
body whatever its outcome, before that outcome is returned or re-raised. -/
def runTryFinally (body : TmpState → PdfOutcome × TmpState)
    (fin : TmpState → TmpState) (s : TmpState) : PdfOutcome × TmpState :=
  let (r, sAfter) := body s
  (r, fin sAfter)

/-- PDFIngestor.parse from the point where the temporary file has been
created (tempfile.NamedTemporaryFile with delete=False, so it exists). -/
def PDFIngestor.parseModel (env : PdfEnv) : PdfOutcome × TmpState :=
  runTryFinally (pdfTryBody env) finallyCleanup ⟨true⟩

/-- Invariant of the QuoteRecord data model: both fields non-empty after
trimming. -/
def quoteInvariant (r : QuoteRecord) : Prop :=
  pyStrip r.body ≠ [] ∧ pyStrip r.author ≠ []

/-- Splitting s as l, sep, r at the last occurrence of sep: the parts
reassemble to s and no further occurrence of sep starts after this one
(an occurrence strictly later would lie inside sep.drop 1 ++ r). -/
def SplitsAtLast (sep s l r : List Char) : Prop :=
  s = l ++ sep ++ r ∧ hasSub sep (sep.drop 1 ++ r) = false

/-! Properties of the string utilities. -/

theorem begins_append (sep t : List Char) : begins sep (sep ++ t) = true := by
  induction sep with
  | nil => rfl
  | cons c cr ih => simp [begins, ih]

theorem begins_eq_drop {sep s : List Char} (h : begins sep s = true) :
    s = sep ++ s.drop sep.length := by
  induction sep generalizing s with
  | nil => simp
  | cons c cr ih =>
    cases s with
    | nil => simp [begins] at h
    | cons d dr =>
      simp only [begins, Bool.and_eq_true, beq_iff_eq] at h
      obtain ⟨rfl, hr⟩ := h
      simpa using ih hr

theorem rsplitLast_isSome (sep s : List Char) :
    (rsplitLast sep s).isSome = hasSub sep s := by
  induction s with
  | nil =>
    simp only [rsplitLast, hasSub]
    cases begins sep [] <;> simp
  | cons c rest ih =>
    simp only [rsplitLast, hasSub]
    cases h : rsplitLast sep rest with
    | some pr =>
      rw [h] at ih
      simp [← ih]
    | none =>
      rw [h] at ih
      cases hb : begins sep (c :: rest) <;> simp [hb, ← ih]

theorem rsplitLast_sound {sep : List Char} (hsep : sep ≠ []) :
    ∀ {s l r : List Char}, rsplitLast sep s = some (l, r) →
      SplitsAtLast sep s l r := by
  intro s
  induction s with
  | nil =>
    intro l r h
    cases sep with
    | nil => exact absurd rfl hsep
    | cons e er => simp [rsplitLast, begins] at h
  | cons c rest ih =>
    intro l r h
    rw [rsplitLast] at h
    cases h' : rsplitLast sep rest with
    | some pr =>
      rw [h'] at h
      obtain ⟨l', r'⟩ := pr
      simp only [Option.some.injEq, Prod.mk.injEq] at h
      obtain ⟨rfl, rfl⟩ := h
      obtain ⟨hdec, hcond⟩ := ih h'
      exact ⟨by rw [hdec]; simp, hcond⟩
    | none =>
      rw [h'] at h
      by_cases hb : begins sep (c :: rest) = true
      · rw [if_pos hb] at h
        simp only [Option.some.injEq, Prod.mk.injEq] at h
        obtain ⟨rfl, rfl⟩ := h
        refine ⟨by simpa using begins_eq_drop hb, ?_⟩
        cases sep with
        | nil => exact absurd rfl hsep
        | cons e er =>
          simp only [begins, Bool.and_eq_true, beq_iff_eq] at hb
          obtain ⟨rfl, her⟩ := hb
          have hrest : rest = er ++ rest.drop er.length := begins_eq_drop her
          have hnone : hasSub (e :: er) rest = false := by
            have := rsplitLast_isSome (e :: er) rest
            rw [h'] at this
            simpa using this.symm
          simp only [List.drop_succ_cons, List.length_cons, List.drop]
          rw [← hrest]
          exact hnone
      · rw [if_neg hb] at h
        exact absurd h (by simp)

theorem rsplitLast_complete {sep : List Char} (hsep : sep ≠ []) :
    ∀ {l r s : List Char}, SplitsAtLast sep s l r →
      rsplitLast sep s = some (l, r) := by
  intro l
  induction l with
  | nil =>
    intro r s hsplit
    obtain ⟨hs, hr⟩ := hsplit
    subst hs
    cases sep with
    | nil => exact absurd rfl hsep
    | cons e er =>
      have hnone : rsplitLast (e :: er) (er ++ r) = none := by
        have hiss := rsplitLast_isSome (e :: er) (er ++ r)
        simp only [List.drop_succ_cons, List.drop] at hr
        rw [hr] at hiss
        exact Option.not_isSome_iff_eq_none.mp (by simp [hiss])
      show rsplitLast (e :: er) ([] ++ (e :: er) ++ r) = some ([], r)
      have hb : begins (e :: er) (e :: (er ++ r)) = true := by
        simpa using begins_append (e :: er) r
      simp only [List.nil_append, List.cons_append, rsplitLast]
      simp only [List.append_eq]
      rw [hnone, if_pos hb]
      simp [List.drop_left]
  | cons x l' ih =>
    intro r s hsplit
    obtain ⟨hs, hr⟩ := hsplit
    subst hs
    have hrec : rsplitLast sep (l' ++ sep ++ r) = some (l', r) := ih ⟨rfl, hr⟩
    show rsplitLast sep (x :: (l' ++ sep ++ r)) = some (x :: l', r)
    rw [rsplitLast, hrec]

theorem hasSub_append_mid (sep l r : List Char) :
    hasSub sep (l ++ sep ++ r) = true := by
  induction l with
  | nil =>
    cases hsr : sep ++ r with
    | nil =>
      obtain ⟨rfl, rfl⟩ := List.append_eq_nil.mp hsr
      simp [hasSub, begins]
    | cons c rest =>
      rw [List.nil_append, hsr, hasSub, ← hsr, begins_append]
      simp
  | cons x l' ih =>
    have hr : hasSub sep (l' ++ (sep ++ r)) = true := by
      simpa [List.append_assoc] using ih
    rw [List.append_assoc, List.cons_append, hasSub, hr]
    simp


theorem stripLeft_cons_false {p : Char → Bool} {c : Char} (s : List Char)
    (h : p c = false) : stripLeft p (c :: s) = c :: s := by
  simp [stripLeft, h]

theorem stripLeft_eq_self {p : Char → Bool} {s : List Char}
    (h : ∀ c, s.head? = some c → p c = false) : stripLeft p s = s := by
  cases s with
  | nil => rfl
  | cons c rest => exact stripLeft_cons_false rest (h c rfl)

theorem head?_stripLeft {p : Char → Bool} {s : List Char} {c : Char}
    (h : (stripLeft p s).head? = some c) : p c = false := by
  induction s with
  | nil => simp [stripLeft] at h
  | cons d rest ih =>
    cases hd : p d with
    | true =>
      rw [stripLeft, if_pos hd] at h
      exact ih h
    | false =>
      rw [stripLeft, if_neg (by simp [hd])] at h
      simp only [List.head?_cons, Option.some.injEq] at h
      rw [← h]
      exact hd

theorem stripLeft_idem (p : Char → Bool) (s : List Char) :
    stripLeft p (stripLeft p s) = stripLeft p s := by
  induction s with
  | nil => rfl
  | cons c rest ih =>
    cases hc : p c with
    | true => simp [stripLeft, hc, ih]
    | false => simp [stripLeft, hc]

theorem exists_drop_stripLeft (p : Char → Bool) (s : List Char) :
    ∃ k, stripLeft p s = s.drop k := by
  induction s with
  | nil => exact ⟨0, rfl⟩
  | cons c rest ih =>
    cases hc : p c with
    | true =>
      obtain ⟨k, hk⟩ := ih
      exact ⟨k + 1, by simp [stripLeft, hc, hk]⟩
    | false => exact ⟨0, by simp [stripLeft, hc]⟩

theorem take_head? {s : List Char} {n : Nat} {c : Char}
    (h : (s.take n).head? = some c) : s.head? = some c := by
  cases s with
  | nil => simp at h
  | cons d rest =>
    cases n with
    | zero => simp at h
    | succ m => simpa using h

theorem head?_stripRight {p : Char → Bool} {s : List Char} {c : Char}
    (h : (stripRight p s).head? = some c) : s.head? = some c := by
  obtain ⟨k, hk⟩ := exists_drop_stripLeft p s.reverse
  rw [stripRight, hk] at h
  have hrd : (s.reverse.drop k).reverse = s.take (s.length - k) := by
    rw [List.reverse_drop]
    simp
  rw [hrd] at h
  exact take_head? h

theorem strip_eq_self {p : Char → Bool} {s : List Char}
    (hh : ∀ c, s.head? = some c → p c = false)
    (hl : ∀ c, s.getLast? = some c → p c = false) : strip p s = s := by
  have h1 : stripLeft p s = s := stripLeft_eq_self hh
  rw [strip, h1, stripRight, stripLeft_eq_self, List.reverse_reverse]
  intro c hc
  exact hl c (by rwa [List.head?_reverse] at hc)

theorem stripRight_idem (p : Char → Bool) (u : List Char) :
    stripRight p (stripRight p u) = stripRight p u := by
  rw [stripRight, stripRight, List.reverse_reverse, stripLeft_idem]

theorem strip_idem (p : Char → Bool) (s : List Char) :
    strip p (strip p s) = strip p s := by
  have hL : stripLeft p (strip p s) = strip p s := by
    refine stripLeft_eq_self fun c hc => ?_
    exact head?_stripLeft (head?_stripRight hc)
  rw [strip, hL, strip, stripRight_idem]

theorem pyStrip_idem (s : List Char) : pyStrip (pyStrip s) = pyStrip s :=
  strip_idem pyWs s

theorem lit_sep3 : lit " - " = [' ', '-', ' '] := rfl

theorem lit_dash : lit "-" = ['-'] := rfl

theorem hasSub_dash_of_sep3 {s : List Char}
    (h : hasSub (lit " - ") s = true) : hasSub (lit "-") s = true := by
  have hiss := rsplitLast_isSome (lit " - ") s
  rw [h] at hiss
  obtain ⟨pr, hpr⟩ := Option.isSome_iff_exists.mp hiss
  obtain ⟨l, r⟩ := pr
  obtain ⟨hs, _⟩ := rsplitLast_sound (by decide) hpr
  have hshape : s = (l ++ [' ']) ++ (lit "-") ++ (' ' :: r) := by
    rw [hs, lit_sep3, lit_dash]
    simp
  rw [hshape]
  exact hasSub_append_mid _ _ _

theorem splits_ne_nil {sep s l r : List Char} (hsep : sep ≠ [])
    (h : s = l ++ sep ++ r) : s.isEmpty = false := by
  rw [h]
  cases sep with
  | nil => exact absurd rfl hsep
  | cons e er => cases l <;> simp

/-- Claim C1 view of the body trim: surrounding whitespace plus ONE layer of
enclosing double quotes (the source instead strips the character set of
spaces and quotes). -/
def oneLayerTrim (s0 : List Char) : List Char :=
  match pyStrip s0 with
  | '"' :: rest =>
    if rest.getLast? = some '"' then rest.dropLast else '"' :: rest
  | other => other

/-- Line parser exactly as claim C1 words it, differing from the source
only in the body trim (oneLayerTrim instead of the set strip). -/
def claimSplitLine (rawLine : List Char) : Option QuoteRecord :=
  if (pyStrip rawLine).isEmpty then none
  else if !(hasSub (lit "-") (pyStrip rawLine)) then none
  else
    match (if hasSub (lit " - ") (pyStrip rawLine) then
             rsplitLast (lit " - ") (pyStrip rawLine)
           else rsplitLast (lit "-") (pyStrip rawLine)) with
    | none => none
    | some (rawBody, rawAuthor) =>
      if !(oneLayerTrim rawBody).isEmpty && !(pyStrip rawAuthor).isEmpty then
        some ⟨oneLayerTrim rawBody, pyStrip rawAuthor⟩
      else none

theorem splitQuoteLine_iff (rawLine : List Char)
    (rec : QuoteRecord) :
    splitQuoteLine rawLine = some rec ↔
      ∃ bodyRaw authorRaw,
        ((hasSub (lit " - ") (pyStrip rawLine) = true ∧
            SplitsAtLast (lit " - ") (pyStrip rawLine) bodyRaw authorRaw) ∨
          (hasSub (lit " - ") (pyStrip rawLine) = false ∧
            SplitsAtLast (lit "-") (pyStrip rawLine) bodyRaw authorRaw)) ∧
        rec.body = pyStrip (strip spaceQuote bodyRaw) ∧ rec.body ≠ [] ∧
        rec.author = pyStrip authorRaw ∧ rec.author ≠ [] := by
  constructor
  · intro h
    rw [splitQuoteLine] at h
    by_cases h0 : (pyStrip rawLine).isEmpty = true
    · rw [if_pos h0] at h
      exact absurd h (by simp)
    rw [if_neg h0] at h
    by_cases hd : hasSub (lit "-") (pyStrip rawLine) = true
    · rw [if_neg (by simp [hd])] at h
      by_cases h3 : hasSub (lit " - ") (pyStrip rawLine) = true
      · rw [if_pos h3] at h
        cases hr : rsplitLast (lit " - ") (pyStrip rawLine) with
        | none =>
          rw [hr] at h
          exact absurd h (by simp)
        | some pr =>
          obtain ⟨b0, a0⟩ := pr
          rw [hr] at h
          dsimp only at h
          by_cases hcond : (!(pyStrip (strip spaceQuote b0)).isEmpty &&
              !(pyStrip a0).isEmpty) = true
          · rw [if_pos hcond] at h
            simp only [Option.some.injEq] at h
            simp only [Bool.and_eq_true, Bool.not_eq_true',
              List.isEmpty_eq_false] at hcond
            refine ⟨b0, a0, Or.inl ⟨h3, rsplitLast_sound (by decide) hr⟩,
              ?_, ?_, ?_, ?_⟩ <;> rw [← h] <;> simp [hcond.1, hcond.2]
          · rw [if_neg hcond] at h
            exact absurd h (by simp)
      · rw [if_neg (by simp [h3])] at h
        cases hr : rsplitLast (lit "-") (pyStrip rawLine) with
        | none =>
          rw [hr] at h
          exact absurd h (by simp)
        | some pr =>
          obtain ⟨b0, a0⟩ := pr
          rw [hr] at h
          dsimp only at h
          by_cases hcond : (!(pyStrip (strip spaceQuote b0)).isEmpty &&
              !(pyStrip a0).isEmpty) = true
          · rw [if_pos hcond] at h
            simp only [Option.some.injEq] at h
            simp only [Bool.and_eq_true, Bool.not_eq_true',
              List.isEmpty_eq_false] at hcond
            refine ⟨b0, a0,
              Or.inr ⟨by simpa using h3, rsplitLast_sound (by decide) hr⟩,
              ?_, ?_, ?_, ?_⟩ <;> rw [← h] <;> simp [hcond.1, hcond.2]
          · rw [if_neg hcond] at h
            exact absurd h (by simp)
    · rw [if_pos (by simp [Bool.eq_false_iff.mpr hd])] at h
      exact absurd h (by simp)
  · rintro ⟨b, a, hsplit, hbody, hbne, hauthor, hane⟩
    rw [splitQuoteLine]
    rcases hsplit with ⟨h3, hS⟩ | ⟨h3, hS⟩
    · have hr := rsplitLast_complete (show lit " - " ≠ [] by decide) hS
      have hdash : hasSub (lit "-") (pyStrip rawLine) = true :=
        hasSub_dash_of_sep3 h3
      have hne : (pyStrip rawLine).isEmpty = false :=
        splits_ne_nil (show lit " - " ≠ [] by decide) hS.1
      rw [if_neg (by simp [hne]), if_neg (by simp [hdash]), if_pos h3, hr]
      dsimp only
      rw [if_pos (by simp [List.isEmpty_eq_false, ← hbody, ← hauthor,
        hbne, hane])]
      cases rec
      simp only [Option.some.injEq, QuoteRecord.mk.injEq]
      exact ⟨hbody.symm, hauthor.symm⟩
    · have hr := rsplitLast_complete (show lit "-" ≠ [] by decide) hS
      have hdash : hasSub (lit "-") (pyStrip rawLine) = true := by
        rw [hS.1]
        exact hasSub_append_mid _ _ _
      have hne : (pyStrip rawLine).isEmpty = false :=
        splits_ne_nil (show lit "-" ≠ [] by decide) hS.1
      rw [if_neg (by simp [hne]), if_neg (by simp [hdash]),
        if_neg (by simp [h3]), hr]
      dsimp only
      rw [if_pos (by simp [List.isEmpty_eq_false, ← hbody, ← hauthor,
        hbne, hane])]
      cases rec
      simp only [Option.some.injEq, QuoteRecord.mk.injEq]
      exact ⟨hbody.symm, hauthor.symm⟩

/-- Characters that survive at the ends of a round-trippable body: neither
the set strip of spaces and quotes nor the whitespace strip touches them. -/
def bodyEnd (c : Char) : Bool := !(spaceQuote c) && !(pyWs c)

/-- Characters that survive at the ends of a round-trippable author. -/
def wordEnd (c : Char) : Bool := !(pyWs c)

/-- Well-formedness of a (body, author) pair: both non-empty, the body ends
in characters kept by the cleanup, the author ends in non-whitespace, and
no stray occurrence of " - " may start after the canonical separator. -/
def wellFormed (b a : List Char) : Bool :=
  !b.isEmpty && !a.isEmpty &&
  b.head?.all bodyEnd && b.getLast?.all bodyEnd &&
  a.head?.all wordEnd && a.getLast?.all wordEnd &&
  !(hasSub (lit " - ") (lit "- " ++ a))

theorem strip_quoted {b : List Char}
    (hbh : b.head?.all bodyEnd = true) (hbl : b.getLast?.all bodyEnd = true)
    (hbne : b ≠ []) :
    strip spaceQuote ('"' :: b ++ ['"']) = b := by
  cases b with
  | nil => exact absurd rfl hbne
  | cons bc bt =>
    simp only [List.head?_cons, Option.all_some, bodyEnd, Bool.and_eq_true,
      Bool.not_eq_true'] at hbh
    have hL : stripLeft spaceQuote ('"' :: (bc :: bt) ++ ['"'])
        = (bc :: bt) ++ ['"'] := by
      rw [List.cons_append, stripLeft, if_pos (by decide), List.cons_append,
        stripLeft_cons_false _ hbh.1]
    rw [strip, hL, stripRight]
    have hrev : ((bc :: bt) ++ ['"']).reverse = '"' :: (bc :: bt).reverse := by
      simp
    rw [hrev, stripLeft, if_pos (by decide)]
    have hlast : ∀ c, (bc :: bt).reverse.head? = some c → spaceQuote c = false := by
      intro c hc
      rw [List.head?_reverse] at hc
      rw [hc] at hbl
      simp only [Option.all_some, bodyEnd, Bool.and_eq_true,
        Bool.not_eq_true'] at hbl
      exact hbl.1
    rw [stripLeft_eq_self hlast, List.reverse_reverse]

theorem pyStrip_of_ends {s : List Char}
    (hh : s.head?.all wordEnd = true) (hl : s.getLast?.all wordEnd = true) :
    pyStrip s = s := by
  refine strip_eq_self ?_ ?_
  · intro c hc
    rw [hc] at hh
    simpa [wordEnd] using hh
  · intro c hc
    rw [hc] at hl
    simpa [wordEnd] using hl

theorem display_getLast? (b : List Char) (ac : Char) (atl : List Char) :
    (QuoteRecord.display ⟨b, ac :: atl⟩).getLast? = (ac :: atl).getLast? := by
  show (('"' :: b) ++ ('"' :: ' ' :: '-' :: ' ' :: (ac :: atl))).getLast? = _
  rw [List.getLast?_append_cons]
  show (['"', ' ', '-', ' '] ++ (ac :: atl)).getLast? = _
  rw [List.getLast?_append_cons]

theorem splitQuoteLine_display {b a : List Char} (h : wellFormed b a = true) :
    splitQuoteLine (QuoteRecord.display ⟨b, a⟩) = some ⟨b, a⟩ := by
  simp only [wellFormed, Bool.and_eq_true, Bool.not_eq_true',
    List.isEmpty_eq_false] at h
  obtain ⟨⟨⟨⟨⟨⟨hbne, hane⟩, hbh⟩, hbl⟩, hah⟩, hal⟩, hsep⟩ := h
  have hbh' : b.head?.all wordEnd = true := by
    cases hb : b.head? with
    | none => rfl
    | some c =>
      rw [hb] at hbh
      simp only [Option.all, bodyEnd, Bool.and_eq_true] at hbh
      simpa [Option.all, wordEnd] using hbh.2
  have hbl' : b.getLast?.all wordEnd = true := by
    cases hb : b.getLast? with
    | none => rfl
    | some c =>
      rw [hb] at hbl
      simp only [Option.all, bodyEnd, Bool.and_eq_true] at hbl
      simpa [Option.all, wordEnd] using hbl.2
  have hstripped : pyStrip (QuoteRecord.display ⟨b, a⟩)
      = QuoteRecord.display ⟨b, a⟩ := by
    refine strip_eq_self ?_ ?_
    · intro c hc
      simp only [QuoteRecord.display, List.cons_append, List.head?_cons,
        Option.some.injEq] at hc
      rw [← hc]
      decide
    · intro c hc
      cases a with
      | nil => exact absurd rfl hane
      | cons ac atl =>
        rw [display_getLast?] at hc
        rw [hc] at hal
        simpa [Option.all, wordEnd] using hal
  have hS : SplitsAtLast (lit " - ") (pyStrip (QuoteRecord.display ⟨b, a⟩))
      ('"' :: b ++ ['"']) a := by
    rw [hstripped]
    refine ⟨?_, ?_⟩
    · rw [QuoteRecord.display, lit_sep3]
      simp
    · have hdr : (lit " - ").drop 1 = lit "- " := by decide
      rw [hdr]
      exact hsep
  have h3 : hasSub (lit " - ") (pyStrip (QuoteRecord.display ⟨b, a⟩)) = true := by
    rw [hstripped]
    have hsh : QuoteRecord.display ⟨b, a⟩
        = ('"' :: b ++ ['"']) ++ lit " - " ++ a := by
      rw [QuoteRecord.display, lit_sep3]
      simp
    rw [hsh]
    exact hasSub_append_mid _ _ _
  rw [splitQuoteLine_iff]
  refine ⟨'"' :: b ++ ['"'], a, Or.inl ⟨h3, hS⟩, ?_, hbne, ?_, hane⟩
  · show b = pyStrip (strip spaceQuote ('"' :: b ++ ['"']))
    rw [strip_quoted hbh hbl hbne, pyStrip_of_ends hbh' hbl']
  · exact (pyStrip_of_ends hah hal).symm

/-- Claim C3: the Text Parser round-trips the canonical display form: a
file whose lines are exactly the display of N well-formed pairs parses to
exactly those N records, in order. -/
theorem text_roundtrip (pairs : List (List Char × List Char))
    (h : ∀ p ∈ pairs, wellFormed p.1 p.2 = true) :
    TextIngestor.parse (pairs.map fun p => QuoteRecord.display ⟨p.1, p.2⟩)
      = pairs.map fun p => (⟨p.1, p.2⟩ : QuoteRecord) := by
  induction pairs with
  | nil => rfl
  | cons hd tl ih =>
    have hhd := h hd (by simp)
    have htl : ∀ p ∈ tl, wellFormed p.1 p.2 = true :=
      fun p hp => h p (by simp [hp])
    simp only [List.map_cons, TextIngestor.parse, List.filterMap_cons,
      splitQuoteLine_display hhd]
    exact congrArg _ (ih htl)

/-- Witness for claim C3 at the concrete scenario of the spec. -/
theorem text_roundtrip_witness :
    (∀ p ∈ [(lit "This is a test", lit "Tester"),
        (lit "Another quote", lit "Someone")], wellFormed p.1 p.2 = true) ∧
    TextIngestor.parse
        ([(lit "This is a test", lit "Tester"),
          (lit "Another quote", lit "Someone")].map
          fun p => QuoteRecord.display ⟨p.1, p.2⟩)
      = [⟨lit "This is a test", lit "Tester"⟩,
         ⟨lit "Another quote", lit "Someone"⟩] :=
  ⟨by decide, text_roundtrip _ (by decide)⟩

/-- Counterexample to claim C1 as stated: on a body wrapped in two layers
of quotes the source strips every surrounding quote and space, not one
layer; the claim predicts body "x" with quotes kept, the code strips all. -/
theorem one_layer_trim_cex :
    splitQuoteLine (lit "\"\"x\"\" - A") = some ⟨lit "x", lit "A"⟩ ∧
    claimSplitLine (lit "\"\"x\"\" - A") = some ⟨lit "\"x\"", lit "A"⟩ ∧
    splitQuoteLine (lit "\"\"x\"\" - A")
      ≠ claimSplitLine (lit "\"\"x\"\" - A") := by
  refine ⟨by decide, by decide, by decide⟩

theorem splitAll_ne_nil (c : Char) (s : List Char) : splitAll c s ≠ [] := by
  cases s with
  | nil => simp [splitAll]
  | cons x xs =>
    rw [splitAll]
    cases h : splitAll c xs with
    | nil => simp
    | cons hh tt => by_cases hx : (x == c) = true <;> simp [hx]

theorem splitAll_no_sep {c : Char} {s : List Char}
    (h : hasSub [c] s = false) : splitAll c s = [s] := by
  induction s with
  | nil => rfl
  | cons x xs ih =>
    rw [hasSub, Bool.or_eq_false_iff] at h
    obtain ⟨hb, hrest⟩ := h
    rw [begins] at hb
    simp only [begins, Bool.and_true, beq_eq_false_iff_ne] at hb
    rw [splitAll, ih hrest]
    simp [beq_eq_false_iff_ne.mpr (fun hcx => hb hcx.symm)]

theorem splitAll_sep_len {c : Char} {s : List Char}
    (h : hasSub [c] s = true) : 2 ≤ (splitAll c s).length := by
  induction s with
  | nil => simp [hasSub, begins] at h
  | cons x xs ih =>
    rw [hasSub, Bool.or_eq_true] at h
    rw [splitAll]
    cases hsp : splitAll c xs with
    | nil => exact absurd hsp (splitAll_ne_nil c xs)
    | cons hh tt =>
      by_cases hx : (x == c) = true
      · simp [hx]
      · rcases h with hb | hrest
        · rw [begins] at hb
          simp only [begins, Bool.and_true, beq_iff_eq] at hb
          exact absurd (beq_iff_eq.mpr hb.symm) (by simpa using hx)
        · have := ih hrest
          rw [hsp] at this
          simp only [List.length_cons] at this ⊢
          simp [hx]
          omega

theorem getLastD_splitAll (c : Char) (s : List Char) :
    (splitAll c s).getLastD []
      = (match rsplitLast [c] s with
         | some pr => pr.2
         | none => s) := by
  induction s with
  | nil => rfl
  | cons x xs ih =>
    rw [splitAll, rsplitLast]
    cases hsp : splitAll c xs with
    | nil => exact absurd hsp (splitAll_ne_nil c xs)
    | cons hh tt =>
      rw [hsp] at ih
      cases hr : rsplitLast [c] xs with
      | some pr =>
        obtain ⟨l, r⟩ := pr
        rw [hr] at ih
        dsimp only at ih ⊢
        have hsub : hasSub [c] xs = true := by
          have hq := rsplitLast_isSome [c] xs
          rw [hr] at hq
          simpa using hq.symm
        have hlen := splitAll_sep_len hsub
        rw [hsp] at hlen
        by_cases hx : (x == c) = true
        · rw [if_pos hx, List.getLastD_cons]
          exact ih
        · rw [if_neg hx]
          cases tt with
          | nil => simp at hlen
          | cons t0 t1 =>
            rw [List.getLastD_cons, List.getLastD_cons] at ih ⊢
            exact ih
      | none =>
        rw [hr] at ih
        dsimp only at ih ⊢
        have hsub : hasSub [c] xs = false := by
          have hq := rsplitLast_isSome [c] xs
          rw [hr] at hq
          simpa using hq.symm
        have hone := splitAll_no_sep hsub
        rw [hsp] at hone
        injection hone with h1 h2
        subst h2
        by_cases hx : (x == c) = true
        · have hbeg : begins [c] (x :: xs) = true := by
            have hcx : c = x := (beq_iff_eq.mp hx).symm
            simp [begins, hcx]
          rw [if_pos hx, if_pos hbeg]
          dsimp only
          simp [List.getLastD_cons, h1]
        · have hbeg : ¬(begins [c] (x :: xs) = true) := by
            have hcx : ¬(c = x) := fun hcx =>
              absurd (beq_iff_eq.mpr hcx.symm) hx
            simp [begins, hcx]
          rw [if_neg hx, if_neg hbeg]
          simp [h1]

/-- Extension as the spec words it: the lowercase substring after the last
dot of the path (the whole path lowercased when it has no dot). -/
def specExt (path : List Char) : List Char :=
  match rsplitLast (lit ".") path with
  | some pr => lowerStr pr.2
  | none => lowerStr path

theorem extOf_eq_specExt (path : List Char) : extOf path = specExt path := by
  rw [extOf, specExt]
  have h := getLastD_splitAll '.' path
  rw [show lit "." = ['.'] from rfl]
  cases hr : rsplitLast ['.'] path with
  | some pr =>
    rw [hr] at h
    rw [h]
  | none =>
    rw [hr] at h
    rw [h]

theorem facadeLoop_log (results : ParserId → Except Unit (List QuoteRecord))
    (path : List Char) (order : List ParserId) :
    (facadeLoop results path order).2
      = (match order.find? (fun q => canIngest q path) with
         | some q => [q]
         | none => []) := by
  induction order with
  | nil => rfl
  | cons p rest ih =>
    rw [facadeLoop, List.find?]
    cases hp : canIngest p path
    · simpa [hp] using ih
    · simp [hp]

/-- Claim C2: the facade computes the extension as the lowercase substring
after the last dot of the path, scans the parser table in the fixed order
Text, CSV, Document, PDF and dispatches to the first parser whose declared
extension set contains that extension; matching is case-insensitive, so
parsing x.CSV selects the CSV parser. -/
theorem facade_dispatch :
    (∀ path, extOf path = specExt path) ∧
    (∀ results path,
      (facadeParse true results path).2
        = (match parserOrder.find? (fun q => canIngest q path) with
           | some q => [q]
           | none => [])) ∧
    (∀ results, (facadeParse true results (lit "x.CSV")).2 = [ParserId.csv]) := by
  refine ⟨extOf_eq_specExt, ?_, ?_⟩
  · intro results path
    show (facadeLoop results path parserOrder).2 = _
    exact facadeLoop_log results path parserOrder
  · intro results
    show (facadeLoop results (lit "x.CSV") parserOrder).2 = [ParserId.csv]
    rw [facadeLoop_log]
    decide

theorem facadeLoop_first_error
    (results : ParserId → Except Unit (List QuoteRecord)) (path : List Char)
    (p : ParserId) (e : Unit) (hfail : results p = .error e) :
    ∀ order : List ParserId,
      order.find? (fun q => canIngest q path) = some p →
      facadeLoop results path order
        = (.error (.parseFailure p path), [p]) := by
  intro order
  induction order with
  | nil =>
    intro h
    simp [List.find?] at h
  | cons q rest ih =>
    intro h
    rw [List.find?] at h
    cases hq : canIngest q path
    · rw [hq] at h
      dsimp only at h
      rw [facadeLoop, if_neg (by simp [hq])]
      exact ih h
    · rw [hq] at h
      dsimp only at h
      injection h with h
      subst h
      rw [facadeLoop, if_pos hq, hfail]

/-- Claim C9: when the extension-matched parser raises, the facade
re-raises a ParseFailure naming that parser and the path, and no other
parser is ever invoked on the path. -/
theorem facade_error_wrapping
    (results : ParserId → Except Unit (List QuoteRecord)) (path : List Char)
    (p : ParserId) (e : Unit)
    (hsel : parserOrder.find? (fun q => canIngest q path) = some p)
    (hfail : results p = .error e) :
    (facadeParse true results path).1 = .error (.parseFailure p path) ∧
    (facadeParse true results path).2 = [p] := by
  have h := facadeLoop_first_error results path p e hfail parserOrder hsel
  constructor
  · show (facadeLoop results path parserOrder).1 = _
    rw [h]
  · show (facadeLoop results path parserOrder).2 = _
    rw [h]

/-- Witness for claim C9: a text file whose parser fails. -/
theorem facade_error_wrapping_witness :
    (facadeParse true (fun _ => Except.error ()) (lit "x.txt")).1
        = .error (.parseFailure .text (lit "x.txt")) ∧
    (facadeParse true (fun _ => Except.error ()) (lit "x.txt")).2
        = [ParserId.text] :=
  facade_error_wrapping (fun _ => Except.error ()) (lit "x.txt") .text ()
    (by decide) rfl

/-- Column resolution as claim C4 words it: the first name pair, in the
fixed priority list, whose two names both occur in the lowercased header. -/
def resolvePriority (columns : List (List Char)) :
    Option (List Char × List Char) :=
  let lower := columns.map lowerStr
  ([(lit "body", lit "author"), (lit "quote", lit "speaker"),
    (lit "body", lit "speaker"), (lit "quote", lit "author")].find?
      fun pr => lower.contains pr.1 && lower.contains pr.2).map
    fun pr => (columns.getD (lower.findIdx (· == pr.1)) [],
               columns.getD (lower.findIdx (· == pr.2)) [])

/-- Pandas CSV parse with the resolution phrased as the priority search of
the spec, sharing the row filter of the source. -/
def specCsvParse (df : DataFrame) : List QuoteRecord :=
  match resolvePriority df.columns with
  | some (bodyCol, authorCol) =>
    df.rows.filterMap fun row =>
      emitRow (cellStr df.columns row bodyCol) (cellStr df.columns row authorCol)
  | none =>
    if 2 ≤ df.columns.length then
      df.rows.filterMap fun row =>
        emitRow (row.getD 0 (lit "nan")) (row.getD 1 (lit "nan"))
    else []

theorem findQuoteColumns_eq_resolvePriority (cols : List (List Char)) :
    findQuoteColumns cols = resolvePriority cols := by
  simp only [findQuoteColumns, resolvePriority]
  by_cases h1 : ((cols.map lowerStr).contains (lit "body")
      && (cols.map lowerStr).contains (lit "author")) = true
  · rw [if_pos h1, List.find?_cons]
    dsimp only
    rw [h1]
    rfl
  · have hf1 : ((cols.map lowerStr).contains (lit "body")
        && (cols.map lowerStr).contains (lit "author")) = false := by
      simpa using h1
    rw [if_neg h1, List.find?_cons]
    dsimp only
    rw [hf1]
    by_cases h2 : ((cols.map lowerStr).contains (lit "quote")
        && (cols.map lowerStr).contains (lit "speaker")) = true
    · rw [if_pos h2, List.find?_cons]
      dsimp only
      rw [h2]
      rfl
    · have hf2 : ((cols.map lowerStr).contains (lit "quote")
          && (cols.map lowerStr).contains (lit "speaker")) = false := by
        simpa using h2
      rw [if_neg h2, List.find?_cons]
      dsimp only
      rw [hf2]
      by_cases h3 : ((cols.map lowerStr).contains (lit "body")
          && (cols.map lowerStr).contains (lit "speaker")) = true
      · rw [if_pos h3, List.find?_cons]
        dsimp only
        rw [h3]
        rfl
      · have hf3 : ((cols.map lowerStr).contains (lit "body")
            && (cols.map lowerStr).contains (lit "speaker")) = false := by
          simpa using h3
        rw [if_neg h3, List.find?_cons]
        dsimp only
        rw [hf3]
        by_cases h4 : ((cols.map lowerStr).contains (lit "quote")
            && (cols.map lowerStr).contains (lit "author")) = true
        · rw [if_pos h4, List.find?_cons]
          dsimp only
          rw [h4]
          rfl
        · have hf4 : ((cols.map lowerStr).contains (lit "quote")
              && (cols.map lowerStr).contains (lit "author")) = false := by
            simpa using h4
          rw [if_neg h4, List.find?_cons]
          dsimp only
          rw [hf4]
          rfl

/-- Claim C4 (amended to the pandas-based CSV parser, the one implementing
the pair priority): its column resolution is exactly the case-insensitive
priority search over (body, author), (quote, speaker), (body, speaker),
(quote, author) with positional fallback, and the header quote,speaker
with row Stay hungry,Jobs yields the single claimed record. -/
theorem pandas_csv_resolution :
    (∀ df : DataFrame, CSVIngestor.parseDF df = specCsvParse df) ∧
    CSVIngestor.parseDF
        ⟨[lit "quote", lit "speaker"], [[lit "Stay hungry", lit "Jobs"]]⟩
      = [⟨lit "Stay hungry", lit "Jobs"⟩] := by
  constructor
  · intro df
    rw [CSVIngestor.parseDF, specCsvParse, findQuoteColumns_eq_resolvePriority]
  · decide

/-- Counterexample to claim C4 as stated over every CSV parser of the
repository: the csv.DictReader-based parser resolves body and author
independently; on header Quote,author,speaker the claimed pair priority
selects (quote, speaker), but that parser pairs the Quote column with the
author column instead of the speaker column. -/
theorem csv_priority_cex :
    resolvePriority [lit "Quote", lit "author", lit "speaker"]
        = some (lit "Quote", lit "speaker") ∧
    dictCSVParse [lit "Quote", lit "author", lit "speaker"]
        [[lit "q", lit "Alice", lit "Sam"]]
      = [⟨lit "q", lit "Alice"⟩] ∧
    (⟨lit "q", lit "Alice"⟩ : QuoteRecord) ≠ ⟨lit "q", lit "Sam"⟩ := by
  refine ⟨by decide, by decide, by decide⟩

theorem emitRow_props {bodyCell authorCell : List Char} {r : QuoteRecord}
    (h : emitRow bodyCell authorCell = some r) :
    r.body = pyStrip bodyCell ∧ r.author = pyStrip authorCell ∧
    r.body ≠ [] ∧ r.author ≠ [] ∧
    r.body ≠ lit "nan" ∧ r.author ≠ lit "nan" := by
  rw [emitRow] at h
  by_cases hc : pyStrip bodyCell ≠ [] ∧ pyStrip authorCell ≠ [] ∧
      pyStrip bodyCell ≠ lit "nan" ∧ pyStrip authorCell ≠ lit "nan"
  · rw [if_pos hc] at h
    injection h with h
    subst h
    exact ⟨rfl, rfl, hc.1, hc.2.1, hc.2.2.1, hc.2.2.2⟩
  · rw [if_neg hc] at h
    exact absurd h (by simp)

/-- Claim C10: the pandas CSV parser emits a row only when neither
resolved cell, in its stripped str form, equals the literal text nan;
a cell that is exactly the word nan is dropped although non-empty after
trimming, by the same test that drops empty (NaN) cells. -/
theorem pandas_nan_filter :
    (∀ df : DataFrame, ∀ r ∈ CSVIngestor.parseDF df,
      r.body ≠ lit "nan" ∧ r.author ≠ lit "nan") ∧
    CSVIngestor.parseDF
        ⟨[lit "body", lit "author"], [[lit "nan", lit "Jobs"]]⟩ = [] ∧
    pyStrip (lit "nan") = lit "nan" ∧ lit "nan" ≠ [] := by
  refine ⟨?_, by decide, by decide, by decide⟩
  intro df r hr
  rw [CSVIngestor.parseDF] at hr
  cases hf : findQuoteColumns df.columns with
  | some pr =>
    obtain ⟨bc, ac⟩ := pr
    rw [hf] at hr
    dsimp only at hr
    obtain ⟨row, _, hrow⟩ := List.mem_filterMap.mp hr
    have hp := emitRow_props hrow
    exact ⟨hp.2.2.2.2.1, hp.2.2.2.2.2⟩
  | none =>
    rw [hf] at hr
    dsimp only at hr
    by_cases h2 : 2 ≤ df.columns.length
    · rw [if_pos h2] at hr
      obtain ⟨row, _, hrow⟩ := List.mem_filterMap.mp hr
      have hp := emitRow_props hrow
      exact ⟨hp.2.2.2.2.1, hp.2.2.2.2.2⟩
    · rw [if_neg h2] at hr
      simp at hr

/-- Witness for claim C10 on a concrete emitted record. -/
theorem pandas_nan_filter_witness :
    (⟨lit "Stay hungry", lit "Jobs"⟩ : QuoteRecord).body ≠ lit "nan" ∧
    (⟨lit "Stay hungry", lit "Jobs"⟩ : QuoteRecord).author ≠ lit "nan" :=
  pandas_nan_filter.1
    ⟨[lit "body", lit "author"], [[lit "Stay hungry", lit "Jobs"]]⟩
    ⟨lit "Stay hungry", lit "Jobs"⟩ (by decide)

/-- Counterexample to claim C5 as stated: the csv.DictReader-based CSV
parser tests truthiness before stripping, so a whitespace-only body cell
produces a record whose body is empty after trimming. -/
theorem dict_csv_invariant_cex :
    dictCSVParse [lit "body", lit "author"] [[lit " ", lit "Jobs"]]
      = [⟨[], lit "Jobs"⟩] ∧
    ¬ quoteInvariant ⟨[], lit "Jobs"⟩ := by
  constructor
  · decide
  · intro h
    exact h.1 (by decide)

theorem splitQuoteLine_invariant {rawLine : List Char} {r : QuoteRecord}
    (h : splitQuoteLine rawLine = some r) : quoteInvariant r := by
  rw [splitQuoteLine_iff] at h
  obtain ⟨b, a, _, hbody, hbne, hauthor, hane⟩ := h
  constructor
  · rw [hbody, pyStrip_idem, ← hbody]
    exact hbne
  · rw [hauthor, pyStrip_idem, ← hauthor]
    exact hane

theorem emitRow_invariant {bodyCell authorCell : List Char} {r : QuoteRecord}
    (h : emitRow bodyCell authorCell = some r) : quoteInvariant r := by
  have hp := emitRow_props h
  constructor
  · rw [hp.1, pyStrip_idem, ← hp.1]
    exact hp.2.2.1
  · rw [hp.2.1, pyStrip_idem, ← hp.2.1]
    exact hp.2.2.2.1

/-- Claim C5 (amended): every record emitted by the Text, Document, PDF
and pandas-based CSV parsers satisfies the invariant of the data model;
the csv.DictReader-based CSV parser is the exception the counterexample
exhibits. -/
theorem parsers_invariant :
    (∀ fileLines, ∀ r ∈ TextIngestor.parse fileLines, quoteInvariant r) ∧
    (∀ paragraphs, ∀ r ∈ DocxIngestor.parse paragraphs, quoteInvariant r) ∧
    (∀ df : DataFrame, ∀ r ∈ CSVIngestor.parseDF df, quoteInvariant r) ∧
    (∀ env quotes, (PDFIngestor.parseModel env).1 = .ok quotes →
      ∀ r ∈ quotes, quoteInvariant r) := by
  refine ⟨?_, ?_, ?_, ?_⟩
  · intro ls r hr
    obtain ⟨x, _, hx⟩ := List.mem_filterMap.mp hr
    exact splitQuoteLine_invariant hx
  · intro ps r hr
    obtain ⟨x, _, hx⟩ := List.mem_filterMap.mp hr
    exact splitQuoteLine_invariant hx
  · intro df r hr
    rw [CSVIngestor.parseDF] at hr
    cases hf : findQuoteColumns df.columns with
    | some pr =>
      obtain ⟨bc, ac⟩ := pr
      rw [hf] at hr
      dsimp only at hr
      obtain ⟨row, _, hrow⟩ := List.mem_filterMap.mp hr
      exact emitRow_invariant hrow
    | none =>
      rw [hf] at hr
      dsimp only at hr
      by_cases h2 : 2 ≤ df.columns.length
      · rw [if_pos h2] at hr
        obtain ⟨row, _, hrow⟩ := List.mem_filterMap.mp hr
        exact emitRow_invariant hrow
      · rw [if_neg h2] at hr
        simp at hr
  · intro env quotes hok r hr
    rw [PDFIngestor.parseModel, runTryFinally] at hok
    cases hex : env.extraction with
    | error e =>
      rw [pdfTryBody, hex] at hok
      simp at hok
    | ok lines =>
      rw [pdfTryBody, hex] at hok
      cases hrf : env.readFails
      · rw [hrf] at hok
        dsimp only at hok
        injection hok with hok
        subst hok
        obtain ⟨x, _, hx⟩ := List.mem_filterMap.mp hr
        exact splitQuoteLine_invariant hx
      · rw [hrf] at hok
        simp at hok

/-- Witness for claim C5 (amended) at concrete parses. -/
theorem parsers_invariant_witness :
    quoteInvariant ⟨lit "a", lit "b"⟩ ∧
    quoteInvariant ⟨lit "Stay hungry", lit "Jobs"⟩ ∧
    quoteInvariant ⟨lit "c", lit "d"⟩ :=
  ⟨parsers_invariant.1 [lit "a - b"] ⟨lit "a", lit "b"⟩ (by decide),
   parsers_invariant.2.2.1
     ⟨[lit "body", lit "author"], [[lit "Stay hungry", lit "Jobs"]]⟩
     ⟨lit "Stay hungry", lit "Jobs"⟩ (by decide),
   parsers_invariant.2.2.2 ⟨.ok [lit "c - d"], false⟩ [⟨lit "c", lit "d"⟩]
     (by decide) ⟨lit "c", lit "d"⟩ (by decide)⟩

theorem chosenFontSize_le (fits : Nat → Bool) (fs : Nat) (h : fs ≤ 10) :
    chosenFontSize fits fs = none := by
  unfold chosenFontSize
  rw [dif_neg (by omega)]

theorem chosenFontSize_gt (fits : Nat → Bool) (fs : Nat) (h : 10 < fs) :
    chosenFontSize fits fs ≠ none := by
  unfold chosenFontSize
  rw [dif_pos h]
  by_cases hf : fits fs = true
  · rw [if_pos hf]
    simp
  · rw [if_neg hf]
    cases hrec : chosenFontSize fits (fs - 2) <;> simp

/-- Claim C6, evaluated at its failing input: for an image of height 100
the loop starts at the floor, min(40, 100 / 10) = 10, the loop body never
runs, and the font is never bound (the none outcome), so make_meme raises
instead of rendering at the floor size; a bound font exists exactly when
the start size is above the floor. -/
theorem font_search_floor_eval :
    initialFontSize 100 = 10 ∧
    (∀ fits fontSize, chosenFontSize fits fontSize = none ↔ fontSize ≤ 10) ∧
    (∀ fits, chosenFontSize fits (initialFontSize 100) = none) := by
  refine ⟨rfl, ?_, ?_⟩
  · intro fits fs
    constructor
    · intro h
      by_contra hgt
      push_neg at hgt
      exact chosenFontSize_gt fits fs hgt h
    · exact chosenFontSize_le fits fs
  · intro fits
    exact chosenFontSize_le fits _ (by decide)

/-- Claim C8: on every exit path after the temporary extraction file has
been created the finally block removes it, whether the tool fails, a later
read or parse fails, or the parse succeeds; the three outcomes are each
realizable and all leave no temporary file behind. -/
theorem pdf_tmp_cleanup :
    (∀ env : PdfEnv, ((PDFIngestor.parseModel env).2).tmpIsThere = false) ∧
    (PDFIngestor.parseModel ⟨.error (), false⟩).1 = .toolFailure ∧
    (PDFIngestor.parseModel ⟨.ok [lit "a - b"], true⟩).1 = .parseFailure ∧
    (PDFIngestor.parseModel ⟨.ok [lit "a - b"], false⟩).1
        = .ok [⟨lit "a", lit "b"⟩] := by
  refine ⟨?_, by decide, by decide, by decide⟩
  intro env
  rw [PDFIngestor.parseModel, runTryFinally]
  cases hex : env.extraction with
  | error e => simp [pdfTryBody, hex, finallyCleanup]
  | ok lines =>
    cases hrf : env.readFails <;>
      simp [pdfTryBody, hex, hrf, finallyCleanup]

/-- Adjacent-line greediness: the first word of the next line would have
overflowed the previous line. -/
def adjExceeds (meas : List Char → Nat) (maxW : Nat)
    (l lNext : List (List Char)) : Prop :=
  ∀ w, lNext.head? = some w → maxW < meas (joinWords (l ++ [w]))

theorem joinWords_mem {w : List Char} {l : List (List Char)} (h : w ∈ l) :
    ∃ s1 s2, joinWords l = s1 ++ (w ++ s2) := by
  induction l with
  | nil => simp at h
  | cons x rest ih =>
    rcases List.mem_cons.mp h with rfl | hmem
    · cases rest with
      | nil => exact ⟨[], [], by simp [joinWords]⟩
      | cons r0 r1 =>
        refine ⟨[], ' ' :: joinWords (r0 :: r1), ?_⟩
        show joinWords (w :: r0 :: r1) = [] ++ (w ++ ' ' :: joinWords (r0 :: r1))
        simp [joinWords]
    · obtain ⟨s1, s2, hs⟩ := ih hmem
      cases rest with
      | nil => simp at hmem
      | cons r0 r1 =>
        refine ⟨x ++ ' ' :: s1, s2, ?_⟩
        show x ++ ' ' :: joinWords (r0 :: r1) = (x ++ ' ' :: s1) ++ (w ++ s2)
        rw [hs]
        simp

theorem wrapStep_nil (meas : List Char → Nat) (maxW : Nat)
    (lines : List (List (List Char))) (w : List Char) :
    wrapStep meas maxW ([], lines) w
      = if meas w ≤ maxW then ([w], lines) else ([w], lines ++ []) := rfl

theorem wrapStep_cons (meas : List Char → Nat) (maxW : Nat) (c0 : List Char)
    (ct : List (List Char)) (lines : List (List (List Char))) (w : List Char) :
    wrapStep meas maxW (c0 :: ct, lines) w
      = if meas (joinWords (c0 :: ct ++ [w])) ≤ maxW
        then (c0 :: ct ++ [w], lines)
        else ([w], lines ++ [c0 :: ct]) := rfl

theorem wrapFold_flatten (meas : List Char → Nat) (maxW : Nat) :
    ∀ (ws cur : List (List Char)) (lines : List (List (List Char))),
      ((ws.foldl (wrapStep meas maxW) (cur, lines)).2
        ++ (if (ws.foldl (wrapStep meas maxW) (cur, lines)).1.isEmpty then []
            else [(ws.foldl (wrapStep meas maxW) (cur, lines)).1])).flatten
      = lines.flatten ++ (cur ++ ws) := by
  intro ws
  induction ws with
  | nil =>
    intro cur lines
    rw [List.foldl_nil]
    cases cur <;> simp
  | cons w ws ih =>
    intro cur lines
    rw [List.foldl_cons]
    cases cur with
    | nil =>
      rw [wrapStep_nil]
      by_cases hfit : meas w ≤ maxW
      · rw [if_pos hfit, ih]
        simp
      · rw [if_neg hfit, ih]
        simp
    | cons c0 ct =>
      rw [wrapStep_cons]
      by_cases hfit : meas (joinWords (c0 :: ct ++ [w])) ≤ maxW
      · rw [if_pos hfit, ih]
        simp
      · rw [if_neg hfit, ih]
        simp

theorem wrapFold_nonempty (meas : List Char → Nat) (maxW : Nat) :
    ∀ (ws cur : List (List Char)) (lines : List (List (List Char))),
      (∀ l ∈ lines, l ≠ []) →
      ∀ l ∈ ((ws.foldl (wrapStep meas maxW) (cur, lines)).2
        ++ (if (ws.foldl (wrapStep meas maxW) (cur, lines)).1.isEmpty then []
            else [(ws.foldl (wrapStep meas maxW) (cur, lines)).1])), l ≠ [] := by
  intro ws
  induction ws with
  | nil =>
    intro cur lines hlines l hl
    rw [List.foldl_nil] at hl
    rcases List.mem_append.mp hl with h | h
    · exact hlines l h
    · by_cases hc : cur.isEmpty = true
      · rw [if_pos hc] at h
        simp at h
      · rw [if_neg hc] at h
        simp only [List.mem_singleton] at h
        subst h
        simpa [List.isEmpty_iff] using hc
  | cons w ws ih =>
    intro cur lines hlines l hl
    rw [List.foldl_cons] at hl
    cases cur with
    | nil =>
      rw [wrapStep_nil] at hl
      by_cases hfit : meas w ≤ maxW
      · rw [if_pos hfit] at hl
        exact ih _ _ hlines l hl
      · rw [if_neg hfit] at hl
        refine ih _ _ ?_ l hl
        intro l' hl'
        exact hlines l' (by simpa using hl')
    | cons c0 ct =>
      rw [wrapStep_cons] at hl
      by_cases hfit : meas (joinWords (c0 :: ct ++ [w])) ≤ maxW
      · rw [if_pos hfit] at hl
        exact ih _ _ hlines l hl
      · rw [if_neg hfit] at hl
        refine ih _ _ ?_ l hl
        intro l' hl'
        rcases List.mem_append.mp hl' with h | h
        · exact hlines l' h
        · simp only [List.mem_singleton] at h
          subst h
          simp

theorem wrapFold_bounded (meas : List Char → Nat) (maxW : Nat) :
    ∀ (ws cur : List (List Char)) (lines : List (List (List Char))),
      (∀ l ∈ lines, 2 ≤ l.length → meas (joinWords l) ≤ maxW) →
      (2 ≤ cur.length → meas (joinWords cur) ≤ maxW) →
      ∀ l ∈ ((ws.foldl (wrapStep meas maxW) (cur, lines)).2
        ++ (if (ws.foldl (wrapStep meas maxW) (cur, lines)).1.isEmpty then []
            else [(ws.foldl (wrapStep meas maxW) (cur, lines)).1])),
        2 ≤ l.length → meas (joinWords l) ≤ maxW := by
  intro ws
  induction ws with
  | nil =>
    intro cur lines hlines hcur l hl
    rw [List.foldl_nil] at hl
    rcases List.mem_append.mp hl with h | h
    · exact hlines l h
    · by_cases hc : cur.isEmpty = true
      · rw [if_pos hc] at h
        simp at h
      · rw [if_neg hc] at h
        simp only [List.mem_singleton] at h
        subst h
        exact hcur
  | cons w ws ih =>
    intro cur lines hlines hcur l hl
    rw [List.foldl_cons] at hl
    cases cur with
    | nil =>
      rw [wrapStep_nil] at hl
      by_cases hfit : meas w ≤ maxW
      · rw [if_pos hfit] at hl
        refine ih _ _ hlines ?_ l hl
        intro hlen
        simp at hlen
      · rw [if_neg hfit] at hl
        refine ih _ _ ?_ ?_ l hl
        · intro l' hl'
          exact hlines l' (by simpa using hl')
        · intro hlen
          simp at hlen
    | cons c0 ct =>
      rw [wrapStep_cons] at hl
      by_cases hfit : meas (joinWords (c0 :: ct ++ [w])) ≤ maxW
      · rw [if_pos hfit] at hl
        refine ih _ _ hlines ?_ l hl
        intro _
        exact hfit
      · rw [if_neg hfit] at hl
        refine ih _ _ ?_ ?_ l hl
        · intro l' hl'
          rcases List.mem_append.mp hl' with h | h
          · exact hlines l' h
          · simp only [List.mem_singleton] at h
            subst h
            exact hcur
        · intro hlen
          simp at hlen

theorem wrapFold_chain (meas : List Char → Nat) (maxW : Nat) :
    ∀ (ws cur : List (List Char)) (lines : List (List (List Char))),
      List.Chain' (adjExceeds meas maxW) lines →
      (∀ l, lines.getLast? = some l → ∀ w, cur.head? = some w →
        maxW < meas (joinWords (l ++ [w]))) →
      (cur = [] → lines = []) →
      List.Chain' (adjExceeds meas maxW)
        ((ws.foldl (wrapStep meas maxW) (cur, lines)).2
          ++ (if (ws.foldl (wrapStep meas maxW) (cur, lines)).1.isEmpty then []
              else [(ws.foldl (wrapStep meas maxW) (cur, lines)).1])) := by
  intro ws
  induction ws with
  | nil =>
    intro cur lines hchain hlink hnil
    rw [List.foldl_nil]
    cases cur with
    | nil =>
      simpa using hchain
    | cons c0 ct =>
      rw [if_neg (by simp)]
      rw [List.chain'_append]
      refine ⟨hchain, List.chain'_singleton _, ?_⟩
      intro x hx y hy
      simp only [List.head?_cons, Option.mem_def, Option.some.injEq] at hy
      subst hy
      intro w hw
      simp only [List.head?_cons, Option.some.injEq] at hw
      subst hw
      exact hlink x (by simpa using hx) c0 rfl
  | cons w ws ih =>
    intro cur lines hchain hlink hnil
    rw [List.foldl_cons]
    cases cur with
    | nil =>
      rw [wrapStep_nil]
      have hlines : lines = [] := hnil rfl
      subst hlines
      by_cases hfit : meas w ≤ maxW
      · rw [if_pos hfit]
        refine ih _ _ List.chain'_nil ?_ ?_
        · intro l hl
          simp at hl
        · intro habs
          simp at habs
      · rw [if_neg hfit]
        refine ih _ _ List.chain'_nil ?_ ?_
        · intro l hl
          simp at hl
        · intro habs
          simp at habs
    | cons c0 ct =>
      rw [wrapStep_cons]
      by_cases hfit : meas (joinWords (c0 :: ct ++ [w])) ≤ maxW
      · rw [if_pos hfit]
        refine ih _ _ hchain ?_ ?_
        · intro l hl w' hw'
          simp only [List.cons_append, List.head?_cons,
            Option.some.injEq] at hw'
          subst hw'
          exact hlink l hl c0 rfl
        · intro habs
          simp at habs
      · rw [if_neg hfit]
        refine ih _ _ ?_ ?_ ?_
        · rw [List.chain'_append]
          refine ⟨hchain, List.chain'_singleton _, ?_⟩
          intro x hx y hy
          simp only [List.head?_cons, Option.mem_def, Option.some.injEq] at hy
          subst hy
          intro w' hw'
          simp only [List.head?_cons, Option.some.injEq] at hw'
          subst hw'
          exact hlink x (by simpa using hx) c0 rfl
        · intro l hl w' hw'
          rw [List.getLast?_concat] at hl
          simp only [Option.some.injEq] at hl
          subst hl
          simp only [List.head?_cons, Option.some.injEq] at hw'
          subst hw'
          exact Nat.lt_of_not_le hfit
        · intro habs
          simp at habs

/-- Claim C7: the word wrap of make_meme, for any pixel-width measure that
is monotone under appending on either side, preserves every word in order
in exactly one line (the flattening of the lines is the word list), emits
no empty line, keeps every multi-word line within the maximum width,
closes a line exactly when the first word of the next line would have
overflowed it, and puts a word wider than the maximum alone on a line. -/
theorem wrap_text_spec (meas : List Char → Nat) (maxW : Nat)
    (hmono₁ : ∀ s t, meas s ≤ meas (s ++ t))
    (hmono₂ : ∀ s t, meas t ≤ meas (s ++ t))
    (ws : List (List Char)) :
    (wrapLines meas maxW ws).flatten = ws ∧
    (∀ l ∈ wrapLines meas maxW ws, l ≠ []) ∧
    (∀ l ∈ wrapLines meas maxW ws, 2 ≤ l.length → meas (joinWords l) ≤ maxW) ∧
    List.Chain' (adjExceeds meas maxW) (wrapLines meas maxW ws) ∧
    (∀ w, maxW < meas w →
      ∀ l ∈ wrapLines meas maxW ws, w ∈ l → l = [w]) := by
  have hflat := wrapFold_flatten meas maxW ws [] []
  have hne := wrapFold_nonempty meas maxW ws [] []
    (by intro l h; simp at h)
  have hbd := wrapFold_bounded meas maxW ws [] []
    (by intro l h; simp at h) (by intro h; simp at h)
  have hch := wrapFold_chain meas maxW ws [] [] List.chain'_nil
    (by intro l h; simp at h) (fun _ => rfl)
  have hW : wrapLines meas maxW ws
      = ((ws.foldl (wrapStep meas maxW) ([], [])).2
        ++ (if (ws.foldl (wrapStep meas maxW) ([], [])).1.isEmpty then []
            else [(ws.foldl (wrapStep meas maxW) ([], [])).1])) := rfl
  rw [hW]
  refine ⟨by simpa using hflat, hne, hbd, hch, ?_⟩
  intro w hw l hl hmem
  have hlne := hne l hl
  cases l with
  | nil => exact absurd rfl hlne
  | cons x t =>
    cases t with
    | nil =>
      simp only [List.mem_singleton] at hmem
      subst hmem
      rfl
    | cons y t2 =>
      have hle : meas (joinWords (x :: y :: t2)) ≤ maxW := hbd _ hl (by simp)
      obtain ⟨s1, s2, hs⟩ := joinWords_mem hmem
      have h1 : meas w ≤ meas (w ++ s2) := hmono₁ w s2
      have h2 : meas (w ++ s2) ≤ meas (s1 ++ (w ++ s2)) := hmono₂ s1 (w ++ s2)
      rw [← hs] at h2
      omega

/-- Witness for claim C7 with the length measure, a width of five and a
word list whose last word is wider than the maximum. -/
theorem wrap_text_spec_witness :
    (wrapLines List.length 5 [lit "ab", lit "cd", lit "wideword"]).flatten
        = [lit "ab", lit "cd", lit "wideword"] ∧
    (∀ l ∈ wrapLines List.length 5 [lit "ab", lit "cd", lit "wideword"],
      l ≠ []) ∧
    (∀ l ∈ wrapLines List.length 5 [lit "ab", lit "cd", lit "wideword"],
      2 ≤ l.length → List.length (joinWords l) ≤ 5) ∧
    List.Chain' (adjExceeds List.length 5)
      (wrapLines List.length 5 [lit "ab", lit "cd", lit "wideword"]) ∧
    (∀ w, 5 < List.length w →
      ∀ l ∈ wrapLines List.length 5 [lit "ab", lit "cd", lit "wideword"],
        w ∈ l → l = [w]) :=
  wrap_text_spec List.length 5 (fun s t => by simp) (fun s t => by simp)
    [lit "ab", lit "cd", lit "wideword"]

/-- Claim C1 (amended): a line emits a record exactly when its stripped
form splits at the last occurrence of " - " (else of "-") into two parts
that are non-empty after the cleanup of the source, the body cleanup
being the strip of all surrounding space and double-quote characters
followed by a whitespace strip. -/
theorem splitQuoteLine_characterization (rawLine : List Char)
    (rec : QuoteRecord) :
    splitQuoteLine rawLine = some rec ↔
      ∃ bodyRaw authorRaw,
        ((hasSub (lit " - ") (pyStrip rawLine) = true ∧
            SplitsAtLast (lit " - ") (pyStrip rawLine) bodyRaw authorRaw) ∨
          (hasSub (lit " - ") (pyStrip rawLine) = false ∧
            SplitsAtLast (lit "-") (pyStrip rawLine) bodyRaw authorRaw)) ∧
        rec.body = pyStrip (strip spaceQuote bodyRaw) ∧ rec.body ≠ [] ∧
        rec.author = pyStrip authorRaw ∧ rec.author ≠ [] :=
  splitQuoteLine_iff rawLine rec
